import Mathlib

/-!
Verification of the finance-tracker ingestion pipeline
(`src/ingest_finance.py`) against its specification.

Python strings are modelled as `List Char`; `sqlite3` state is modelled by an
explicit `Store`/`Conn` state machine; Python exceptions become `Except`
results.  Machine words inside the SHA-256 fingerprint are `Nat` reduced
modulo `2 ^ 32`.
-/

set_option maxRecDepth 4000

/-- Convert a string literal to the `List Char` representation used throughout. -/
def strChars (s : String) : List Char := s.data

/-! ## Money normalizer: `to_cents` -/

/-- The two exception kinds `to_cents` can raise: `ValueError("Amount is
missing")` for an absent amount, and `decimal.InvalidOperation` when the
text cannot be converted to a `Decimal`. -/
inductive AmountErr where
  | missingAmount
  | invalidOperation
deriving DecidableEq

deriving instance DecidableEq for Except

/-- ASCII whitespace, the characters matched by a regex `\s` class and
stripped by `Decimal`'s string conversion. -/
def isSpaceChar (c : Char) : Bool :=
  decide (c.toNat = 32 ∨ c.toNat = 9 ∨ c.toNat = 10 ∨ c.toNat = 13 ∨
          c.toNat = 11 ∨ c.toNat = 12)

/-- Digit value of an ASCII digit character. -/
def digitVal (c : Char) : Nat := c.toNat - 48

/-- Numeric value of a digit string, most significant digit first. -/
def digitsToNat (l : List Char) : Nat :=
  l.foldl (fun a c => 10 * a + digitVal c) 0

/-- Drop trailing whitespace. -/
def dropTrail (l : List Char) : List Char :=
  (l.reverse.dropWhile isSpaceChar).reverse

/-- Parse an unsigned decimal literal `digits [. digits]` into
`(significand, number of fractional digits)`. -/
def parseUnsigned (s : List Char) : Option (Nat × Nat) :=
  let ip := s.takeWhile Char.isDigit
  let rest := s.dropWhile Char.isDigit
  match rest with
  | [] => if ip.isEmpty then none else some (digitsToNat ip, 0)
  | c :: fs =>
    if c = '.' ∧ fs.all Char.isDigit ∧ (ip ≠ [] ∨ fs ≠ []) then
      some (digitsToNat (ip ++ fs), fs.length)
    else none

/-- Parse a plain signed decimal literal (optional surrounding whitespace,
optional sign, digits with optional fractional part) to `(m, k)` with value
`m / 10 ^ k`.  This models the domain of `Decimal(str(x))` restricted to
plain decimal literals; scientific notation and special values are outside
the model and map to a conversion failure, as `quantize` on them would not
yield a finite result relevant to the claims. -/
def parseDec (s0 : List Char) : Option (Int × Nat) :=
  let s := dropTrail (s0.dropWhile isSpaceChar)
  match s with
  | '+' :: r => (parseUnsigned r).map (fun p => ((p.1 : Int), p.2))
  | '-' :: r => (parseUnsigned r).map (fun p => (-(p.1 : Int), p.2))
  | r => (parseUnsigned r).map (fun p => ((p.1 : Int), p.2))

/-- Model of `Decimal.quantize` at two decimals with `ROUND_HALF_UP`, followed by
`int(d * 100)`: the exact cent count of `m / 10 ^ k`, rounding ties away
from zero (Python's `ROUND_HALF_UP`). -/
def quantHalfUp (m : Int) (k : Nat) : Int :=
  if k ≤ 2 then m * 10 ^ (2 - k)
  else
    let d := 10 ^ (k - 2)
    let n := (2 * m.natAbs + d) / (2 * d)
    if 0 ≤ m then (n : Int) else -(n : Int)

/-- Embedding of `to_cents` from `ingest_finance.py`: `None` raises
`ValueError("Amount is missing")`; a string that `Decimal` cannot parse
raises `decimal.InvalidOperation`; otherwise the amount is quantized to two
decimals with `ROUND_HALF_UP` and scaled to cents. -/
def to_cents (x : Option (List Char)) : Except AmountErr Int :=
  match x with
  | none => .error .missingAmount
  | some s =>
    match parseDec s with
    | none => .error .invalidOperation
    | some (m, k) => .ok (quantHalfUp m k)

/-- The specification's rounding rule, stated on rationals: round to the
nearest integer, with a tie going to the integer farther from zero. -/
def roundHalfAway (q : ℚ) : ℤ :=
  if 0 ≤ q then ⌊q + 1 / 2⌋ else -⌊-q + 1 / 2⌋

theorem roundHalfAway_intCast (z : ℤ) : roundHalfAway (z : ℚ) = z := by
  unfold roundHalfAway
  have h12 : ⌊(1 / 2 : ℚ)⌋ = 0 := by norm_num
  split
  · rw [add_comm, Int.floor_add_int, h12, zero_add]
  · rw [← Int.cast_neg, add_comm, Int.floor_add_int, h12, zero_add, neg_neg]

theorem floor_natCast_div (a b : ℕ) (hb : 0 < b) :
    ⌊((a : ℚ) / (b : ℚ))⌋ = ((a / b : ℕ) : ℤ) := by
  rw [Int.floor_eq_iff]
  constructor
  · rw [le_div_iff₀ (by exact_mod_cast hb)]
    push_cast
    exact_mod_cast Nat.cast_le.mpr (Nat.div_mul_le_self a b)
  · rw [div_lt_iff₀ (by exact_mod_cast hb)]
    have h1 : a / b * b + a % b = a := Nat.div_add_mod' a b
    have h2 := Nat.mod_lt a hb
    have h : a < (a / b + 1) * b := by rw [Nat.add_mul, one_mul]; omega
    push_cast
    exact_mod_cast h

theorem quantHalfUp_eq_roundHalfAway (m : Int) (k : Nat) :
    quantHalfUp m k = roundHalfAway (100 * (m : ℚ) / 10 ^ k) := by
  unfold quantHalfUp
  split
  · rename_i hk
    have h10 : ((10 : ℚ) ^ k) ≠ 0 := by positivity
    have hval : 100 * (m : ℚ) / 10 ^ k = ((m * 10 ^ (2 - k) : ℤ) : ℚ) := by
      rw [div_eq_iff h10]
      push_cast
      rw [mul_assoc, ← pow_add]
      have : 2 - k + k = 2 := by omega
      rw [this]
      ring
    rw [hval, roundHalfAway_intCast]
  · rename_i hk
    have hk2 : 2 < k := by omega
    have hkk : k = (k - 2) + 2 := by omega
    set j := k - 2 with hj
    have hd : (0 : ℚ) < 10 ^ j := by positivity
    have hdn : 0 < (10 : ℕ) ^ j := by positivity
    have hsplit : 100 * (m : ℚ) / 10 ^ k = (m : ℚ) / 10 ^ j := by
      rw [hkk, pow_add]
      field_simp
      ring
    rw [hsplit]
    have key : ∀ a : ℕ, ⌊((a : ℚ) / 10 ^ j + 1 / 2)⌋ =
        (((2 * a + 10 ^ j) / (2 * 10 ^ j) : ℕ) : ℤ) := by
      intro a
      have : (a : ℚ) / 10 ^ j + 1 / 2 =
          ((2 * a + 10 ^ j : ℕ) : ℚ) / ((2 * 10 ^ j : ℕ) : ℚ) := by
        push_cast
        field_simp
        ring
      rw [this, floor_natCast_div _ _ (by positivity)]
    by_cases hm : 0 ≤ m
    · rw [if_pos hm]
      have hq : 0 ≤ (m : ℚ) / 10 ^ j := by
        apply div_nonneg _ (le_of_lt hd)
        exact_mod_cast hm
      rw [roundHalfAway, if_pos hq]
      have hma0 : (m.natAbs : ℤ) = m := by omega
      have hma : (m : ℚ) = (m.natAbs : ℚ) := by
        have h := congrArg (fun z : ℤ => (z : ℚ)) hma0
        simp only [Int.cast_natCast] at h
        exact h.symm
      rw [hma, key]
    · rw [if_neg hm]
      push_neg at hm
      have hq : ¬(0 ≤ (m : ℚ) / 10 ^ j) := by
        push_neg
        apply div_neg_of_neg_of_pos _ hd
        exact_mod_cast hm
      rw [roundHalfAway, if_neg hq]
      have hma0 : (m.natAbs : ℤ) = -m := by omega
      have hma1 : (m.natAbs : ℚ) = -(m : ℚ) := by
        have h := congrArg (fun z : ℤ => (z : ℚ)) hma0
        simp only [Int.cast_natCast, Int.cast_neg] at h
        exact h
      have hma : -((m : ℚ) / 10 ^ j) = (m.natAbs : ℚ) / 10 ^ j := by
        rw [hma1]; ring
      rw [hma, key]

/-- C2: `to_cents` computes round-half-away-from-zero of `100·x` exactly, and
the pinned tie-break examples evaluate as the spec states. -/
theorem to_cents_half_away_from_zero :
    (∀ (s : List Char) (m : Int) (k : Nat), parseDec s = some (m, k) →
      to_cents (some s) = .ok (roundHalfAway (100 * (m : ℚ) / 10 ^ k))) ∧
    to_cents (some (strChars "12.345")) = .ok 1235 ∧
    to_cents (some (strChars "19.995")) = .ok 2000 ∧
    to_cents (some (strChars "19.994")) = .ok 1999 ∧
    to_cents (some (strChars "-0.005")) = .ok (-1) := by
  refine ⟨?_, by decide, by decide, by decide, by decide⟩
  intro s m k hp
  simp only [to_cents, hp]
  rw [quantHalfUp_eq_roundHalfAway]

/-- Witness for C2's universally quantified part at the concrete input
`"2.5"`, whose parse is `(25, 1)`. -/
theorem to_cents_half_away_from_zero_witness :
    parseDec (strChars "2.5") = some (25, 1) ∧
    to_cents (some (strChars "2.5")) =
      .ok (roundHalfAway (100 * ((25 : Int) : ℚ) / 10 ^ (1 : Nat))) :=
  ⟨by decide, to_cents_half_away_from_zero.1 (strChars "2.5") 25 1 (by decide)⟩

/-- C3 counterexample: `to_cents(None)` and `to_cents("")` both fail, but with
different exception kinds — `ValueError("Amount is missing")` versus
`decimal.InvalidOperation` from the `Decimal` conversion — so the two
failures are not the same error kind. -/
theorem to_cents_none_empty_kinds_differ :
    to_cents none = .error AmountErr.missingAmount ∧
    to_cents (some (strChars "")) = .error AmountErr.invalidOperation ∧
    AmountErr.missingAmount ≠ AmountErr.invalidOperation := by
  decide

/-- C3 amended: an absent amount and an unparseable amount both make
`to_cents` fail; the absent case raises the missing-amount `ValueError`,
while every string `Decimal` cannot parse (the empty string included)
raises `decimal.InvalidOperation`. -/
theorem to_cents_rejects_missing_and_unparseable :
    to_cents none = .error AmountErr.missingAmount ∧
    (∀ s : List Char, parseDec s = none →
      to_cents (some s) = .error AmountErr.invalidOperation) := by
  refine ⟨by decide, ?_⟩
  intro s h
  simp [to_cents, h]

/-- Witness for C3's amended theorem at the concrete unparseable input `""`. -/
theorem to_cents_rejects_missing_and_unparseable_witness :
    parseDec (strChars "") = none ∧
    to_cents (some (strChars "")) = .error AmountErr.invalidOperation :=
  ⟨by decide, to_cents_rejects_missing_and_unparseable.2 (strChars "") (by decide)⟩

/-! ## Description normalizer: `clean_description` -/

/-- ASCII lowercase letter. -/
def isLowerAZ (c : Char) : Bool := decide (97 ≤ c.toNat ∧ c.toNat ≤ 122)

/-- ASCII digit. -/
def isDigit09 (c : Char) : Bool := decide (48 ≤ c.toNat ∧ c.toNat ≤ 57)

/-- Python `str.lower()` restricted to ASCII: map `A`-`Z` to `a`-`z`. -/
def lowerChar (c : Char) : Char :=
  if 65 ≤ c.toNat ∧ c.toNat ≤ 90 then Char.ofNat (c.toNat + 32) else c

/-- One character of `re.sub(r"[^a-z0-9\s]", " ", s)`: keep lowercase
letters, digits and whitespace, replace everything else by a space. -/
def subChar (c : Char) : Char :=
  if isLowerAZ c || isDigit09 c || isSpaceChar c then c else ' '

/-- Model of the whitespace-collapsing regex substitution: every whitespace
run becomes one space. -/
def collapseWS : List Char → List Char
  | [] => []
  | [c] => if isSpaceChar c then [' '] else [c]
  | c :: d :: rest =>
    if isSpaceChar c then
      if isSpaceChar d then collapseWS (d :: rest)
      else ' ' :: collapseWS (d :: rest)
    else c :: collapseWS (d :: rest)

/-- Python `str.strip()`: drop leading and trailing whitespace. -/
def stripWS (l : List Char) : List Char :=
  ((l.dropWhile isSpaceChar).reverse.dropWhile isSpaceChar).reverse

/-- Python `str.replace` with an empty replacement, scanning left to
right, with the list length as
structural fuel (one unit per character consumed). -/
def removeAllAux (pat : List Char) : Nat → List Char → List Char
  | _, [] => []
  | 0, l => l
  | fuel + 1, c :: cs =>
    if pat.isPrefixOf (c :: cs) then
      removeAllAux pat fuel (cs.drop (pat.length - 1))
    else c :: removeAllAux pat fuel cs

/-- Remove every occurrence of `pat`, as Python's `str.replace(pat, "")`. -/
def removeAll (pat l : List Char) : List Char := removeAllAux pat l.length l

/-- The `NOISE_PHRASES` list of `ingest_finance.py`, in source order. -/
def NOISE_PHRASES : List (List Char) :=
  [ strChars "card purchase", strChars "pos", strChars "purchase",
    strChars "debit", strChars "credit", strChars "us" ]

/-- Embedding of `clean_description` from `ingest_finance.py`: empty on absent input,
then lowercase, replace non-`[a-z0-9\s]` by spaces, collapse and strip
whitespace, strip each noise phrase by literal substring removal, and
collapse and strip once more. -/
def clean_description (desc : Option (List Char)) : List Char :=
  match desc with
  | none => []
  | some d =>
    let s1 := d.map lowerChar
    let s2 := s1.map subChar
    let s3 := stripWS (collapseWS s2)
    let s4 := NOISE_PHRASES.foldl (fun acc n => removeAll n acc) s3
    stripWS (collapseWS s4)

/-- C5: the normalization pipeline maps absent input to the empty string and
cleans the spec's example to exactly `"starbucks 4512"`. -/
theorem clean_description_pipeline :
    clean_description none = strChars "" ∧
    clean_description (some (strChars "CARD PURCHASE Starbucks #4512!!")) =
      strChars "starbucks 4512" := by
  decide

/-- C4 counterexample: `clean_description` is not idempotent.  On
`"pposos"` the single removal pass of `"pos"` leaves a new `"pos"`
occurrence, so a second application strips it to the empty string. -/
theorem clean_description_not_idempotent :
    clean_description (some (clean_description (some (strChars "pposos")))) ≠
      clean_description (some (strChars "pposos")) ∧
    clean_description (some (strChars "pposos")) = strChars "pos" ∧
    clean_description (some (strChars "pos")) = strChars "" := by
  decide

/-! ### Normal form of cleaned descriptions -/

/-- Characters that can appear in a cleaned description: lowercase ASCII
letters, digits, or the plain space. -/
def goodChar (c : Char) : Bool :=
  isLowerAZ c || isDigit09 c || decide (c.toNat = 32)

/-- Characters surviving the `[^a-z0-9\s]` substitution: lowercase letters,
digits, or any whitespace. -/
def okChar (c : Char) : Bool := isLowerAZ c || isDigit09 c || isSpaceChar c

/-- Whether a string starts with whitespace. -/
def headSpace : List Char → Bool
  | [] => false
  | c :: _ => isSpaceChar c

/-- Whether a string ends with whitespace. -/
def lastSpace (l : List Char) : Bool := headSpace l.reverse

/-- No two adjacent whitespace characters. -/
def noTwoSpaces : List Char → Bool
  | c :: d :: rest => (!(isSpaceChar c && isSpaceChar d)) && noTwoSpaces (d :: rest)
  | _ => true

theorem noTwoSpaces_cons (c : Char) (l : List Char) :
    noTwoSpaces (c :: l) = ((!(isSpaceChar c && headSpace l)) && noTwoSpaces l) := by
  cases l <;> simp [noTwoSpaces, headSpace]

theorem okChar_subChar (c : Char) : okChar (subChar c) = true := by
  unfold subChar
  split
  · assumption
  · decide

theorem goodChar_of_okChar_not_space {c : Char} (h1 : okChar c = true)
    (h2 : isSpaceChar c = false) : goodChar c = true := by
  simp only [okChar, isLowerAZ, isDigit09, isSpaceChar, goodChar,
    Bool.or_eq_true, decide_eq_true_eq, decide_eq_false_iff_not] at h1 h2 ⊢
  omega

theorem goodChar_imp_okChar {c : Char} (h : goodChar c = true) : okChar c = true := by
  simp only [okChar, isLowerAZ, isDigit09, isSpaceChar, goodChar,
    Bool.or_eq_true, decide_eq_true_eq] at h ⊢
  omega

theorem char_eq_space_of_good {c : Char} (hg : goodChar c = true)
    (hs : isSpaceChar c = true) : c = ' ' := by
  have hn : c.toNat = 32 := by
    simp only [goodChar, isLowerAZ, isDigit09, isSpaceChar,
      Bool.or_eq_true, decide_eq_true_eq] at hg hs
    omega
  have h := Char.ofNat_toNat c
  rw [hn] at h
  exact h.symm

theorem lowerChar_of_good {c : Char} (h : goodChar c = true) : lowerChar c = c := by
  unfold lowerChar
  rw [if_neg]
  simp only [goodChar, isLowerAZ, isDigit09,
    Bool.or_eq_true, decide_eq_true_eq] at h
  omega

theorem subChar_of_good {c : Char} (h : goodChar c = true) : subChar c = c := by
  have hcond : (isLowerAZ c || isDigit09 c || isSpaceChar c) = true := by
    simp only [goodChar, Bool.or_eq_true] at h
    cases h with
    | inl h2 =>
      cases h2 with
      | inl h3 => simp [h3]
      | inr h3 => simp [h3]
    | inr h2 =>
      simp only [decide_eq_true_eq] at h2
      simp [isSpaceChar, h2]
  unfold subChar
  rw [if_pos hcond]

theorem map_id_of_mem {f : Char → Char} (l : List Char)
    (h : ∀ c ∈ l, f c = c) : l.map f = l := by
  induction l with
  | nil => rfl
  | cons c cs ih =>
    simp only [List.map_cons, h c (by simp), ih (fun x hx => h x (by simp [hx]))]

theorem collapseWS_cons_not_space {d : Char} (h : isSpaceChar d = false)
    (cs : List Char) : collapseWS (d :: cs) = d :: collapseWS cs := by
  cases cs <;> simp [collapseWS, h]

theorem headSpace_collapseWS (l : List Char) :
    headSpace (collapseWS l) = headSpace l := by
  induction l with
  | nil => rfl
  | cons c cs ih =>
    cases cs with
    | nil =>
      by_cases h : isSpaceChar c = true
      · simp [collapseWS, h, headSpace]
        decide
      · simp only [Bool.not_eq_true] at h
        simp [collapseWS, h, headSpace]
    | cons d rest =>
      by_cases hc : isSpaceChar c = true
      · by_cases hd : isSpaceChar d = true
        · simp only [collapseWS, hc, hd, if_pos]
          rw [ih]
          simp [headSpace, hc, hd]
        · simp only [Bool.not_eq_true] at hd
          simp [collapseWS, hc, hd, headSpace]
          decide
      · simp only [Bool.not_eq_true] at hc
        simp [collapseWS, hc, headSpace]

theorem mem_collapseWS_good (l : List Char) :
    (∀ c ∈ l, okChar c = true) → ∀ c ∈ collapseWS l, goodChar c = true := by
  induction l with
  | nil => intro _ c hc; simp [collapseWS] at hc
  | cons c cs ih =>
    cases cs with
    | nil =>
      intro hok e he
      by_cases h : isSpaceChar c = true
      · simp [collapseWS, h] at he
        subst he; decide
      · simp only [Bool.not_eq_true] at h
        simp [collapseWS, h] at he
        subst he
        exact goodChar_of_okChar_not_space (hok _ (by simp)) h
    | cons d rest =>
      intro hok e he
      have hok' : ∀ x ∈ d :: rest, okChar x = true := fun x hx => hok x (by simp [hx])
      by_cases hc : isSpaceChar c = true
      · by_cases hd : isSpaceChar d = true
        · simp only [collapseWS, hc, hd, if_pos] at he
          exact ih hok' e he
        · simp only [Bool.not_eq_true] at hd
          simp only [collapseWS, hc, hd] at he
          simp only [if_pos, Bool.false_eq_true, if_false, List.mem_cons] at he
          cases he with
          | inl h => subst h; decide
          | inr h => exact ih hok' e h
      · simp only [Bool.not_eq_true] at hc
        rw [collapseWS_cons_not_space hc] at he
        simp only [List.mem_cons] at he
        cases he with
        | inl h =>
          subst h
          exact goodChar_of_okChar_not_space (hok e (by simp)) hc
        | inr h => exact ih hok' e h

theorem noTwoSpaces_collapseWS (l : List Char) :
    noTwoSpaces (collapseWS l) = true := by
  induction l with
  | nil => rfl
  | cons c cs ih =>
    cases cs with
    | nil =>
      by_cases h : isSpaceChar c = true
      · simp [collapseWS, h, noTwoSpaces]
      · simp only [Bool.not_eq_true] at h
        simp [collapseWS, h, noTwoSpaces]
    | cons d rest =>
      by_cases hc : isSpaceChar c = true
      · by_cases hd : isSpaceChar d = true
        · simpa [collapseWS, hc, hd] using ih
        · simp only [Bool.not_eq_true] at hd
          simp only [collapseWS, hc, hd]
          simp only [if_pos, Bool.false_eq_true, if_false]
          rw [noTwoSpaces_cons]
          rw [headSpace_collapseWS]
          simp [headSpace, hd, ih]
      · simp only [Bool.not_eq_true] at hc
        rw [collapseWS_cons_not_space hc, noTwoSpaces_cons, headSpace_collapseWS]
        simp [hc, ih]

theorem collapseWS_eq_self (l : List Char) :
    (∀ c ∈ l, goodChar c = true) → noTwoSpaces l = true → collapseWS l = l := by
  induction l with
  | nil => intro _ _; rfl
  | cons c cs ih =>
    cases cs with
    | nil =>
      intro hg _
      by_cases h : isSpaceChar c = true
      · have : c = ' ' := char_eq_space_of_good (hg c (by simp)) h
        simp [collapseWS, h, this]
      · simp only [Bool.not_eq_true] at h
        simp [collapseWS, h]
    | cons d rest =>
      intro hg hn
      have hg' : ∀ x ∈ d :: rest, goodChar x = true := fun x hx => hg x (by simp [hx])
      rw [noTwoSpaces_cons] at hn
      simp only [Bool.and_eq_true, Bool.not_eq_true'] at hn
      obtain ⟨hn1, hn2⟩ := hn
      by_cases hc : isSpaceChar c = true
      · have hd : isSpaceChar d = false := by
          simp only [hc, Bool.true_and] at hn1
          simpa [headSpace] using hn1
        have hcsp : c = ' ' := char_eq_space_of_good (hg c (by simp)) hc
        simp only [collapseWS, hc, hd]
        simp only [if_pos, Bool.false_eq_true, if_false]
        rw [ih hg' hn2, hcsp]
      · simp only [Bool.not_eq_true] at hc
        rw [collapseWS_cons_not_space hc, ih hg' hn2]

theorem headSpace_dropWhile (l : List Char) :
    headSpace (l.dropWhile isSpaceChar) = false := by
  induction l with
  | nil => rfl
  | cons c cs ih =>
    by_cases h : isSpaceChar c = true
    · simpa [List.dropWhile, h] using ih
    · simp only [Bool.not_eq_true] at h
      simp [List.dropWhile, h, headSpace]

theorem dropWhile_eq_self_of_headSpace {l : List Char}
    (h : headSpace l = false) : l.dropWhile isSpaceChar = l := by
  cases l with
  | nil => rfl
  | cons c cs =>
    simp only [headSpace] at h
    simp [List.dropWhile, h]

theorem noTwoSpaces_tail {c : Char} {l : List Char}
    (h : noTwoSpaces (c :: l) = true) : noTwoSpaces l = true := by
  rw [noTwoSpaces_cons] at h
  exact (Bool.and_eq_true_iff.mp h).2

theorem noTwoSpaces_dropWhile {l : List Char}
    (h : noTwoSpaces l = true) : noTwoSpaces (l.dropWhile isSpaceChar) = true := by
  induction l with
  | nil => exact h
  | cons c cs ih =>
    by_cases hc : isSpaceChar c = true
    · simp only [List.dropWhile, hc]
      exact ih (noTwoSpaces_tail h)
    · simp only [Bool.not_eq_true] at hc
      simpa [List.dropWhile, hc] using h

theorem headSpace_append_of_ne {l1 l2 : List Char} (c : Char) (h : headSpace (c :: l1 ++ l2) = false) :
    headSpace (c :: l1) = false := by
  simpa [headSpace] using h

theorem noTwoSpaces_append_left {l1 l2 : List Char}
    (h : noTwoSpaces (l1 ++ l2) = true) : noTwoSpaces l1 = true := by
  induction l1 with
  | nil => rfl
  | cons c cs ih =>
    rw [List.cons_append, noTwoSpaces_cons] at h
    obtain ⟨h1, h2⟩ := Bool.and_eq_true_iff.mp h
    rw [noTwoSpaces_cons]
    refine Bool.and_eq_true_iff.mpr ⟨?_, ih h2⟩
    cases cs with
    | nil => simp [headSpace]
    | cons d rest =>
      simpa [headSpace] using h1

theorem dropTrail_spec (l : List Char) :
    dropTrail l ++ (l.reverse.takeWhile isSpaceChar).reverse = l := by
  unfold dropTrail
  rw [← List.reverse_append, List.takeWhile_append_dropWhile, List.reverse_reverse]

theorem noTwoSpaces_dropTrail {l : List Char}
    (h : noTwoSpaces l = true) : noTwoSpaces (dropTrail l) = true := by
  have hs := dropTrail_spec l
  rw [← hs] at h
  exact noTwoSpaces_append_left h

theorem headSpace_dropTrail {l : List Char}
    (h : headSpace l = false) : headSpace (dropTrail l) = false := by
  have hs := dropTrail_spec l
  cases hdt : dropTrail l with
  | nil => rfl
  | cons c cs =>
    rw [hdt] at hs
    rw [← hs] at h
    simpa [headSpace] using h

theorem stripWS_eq_dropTrail_dropWhile (l : List Char) :
    stripWS l = dropTrail (l.dropWhile isSpaceChar) := rfl

theorem headSpace_stripWS (l : List Char) : headSpace (stripWS l) = false :=
  headSpace_dropTrail (headSpace_dropWhile l)

theorem lastSpace_stripWS (l : List Char) : lastSpace (stripWS l) = false := by
  unfold lastSpace stripWS
  rw [List.reverse_reverse]
  exact headSpace_dropWhile _

theorem noTwoSpaces_stripWS {l : List Char}
    (h : noTwoSpaces l = true) : noTwoSpaces (stripWS l) = true := by
  rw [stripWS_eq_dropTrail_dropWhile]
  exact noTwoSpaces_dropTrail (noTwoSpaces_dropWhile h)

theorem mem_of_mem_dropTrail {c : Char} {l : List Char}
    (h : c ∈ dropTrail l) : c ∈ l := by
  have hs := dropTrail_spec l
  rw [← hs]
  exact List.mem_append_left _ h

theorem mem_of_mem_stripWS {c : Char} {l : List Char}
    (h : c ∈ stripWS l) : c ∈ l := by
  rw [stripWS_eq_dropTrail_dropWhile] at h
  exact (List.dropWhile_sublist _).subset (mem_of_mem_dropTrail h)

theorem stripWS_eq_self {l : List Char} (h1 : headSpace l = false)
    (h2 : lastSpace l = false) : stripWS l = l := by
  unfold stripWS
  rw [dropWhile_eq_self_of_headSpace h1]
  unfold lastSpace at h2
  rw [dropWhile_eq_self_of_headSpace h2, List.reverse_reverse]

/-- Whether `pat` occurs as a contiguous substring. -/
def hasOcc (pat : List Char) : List Char → Bool
  | [] => pat.isEmpty
  | c :: cs => pat.isPrefixOf (c :: cs) || hasOcc pat cs

theorem removeAllAux_noop (pat : List Char) :
    ∀ (fuel : Nat) (l : List Char), hasOcc pat l = false →
      removeAllAux pat fuel l = l := by
  intro fuel
  induction fuel with
  | zero => intro l _; cases l <;> rfl
  | succ n ih =>
    intro l h
    cases l with
    | nil => rfl
    | cons c cs =>
      simp only [hasOcc, Bool.or_eq_false_iff] at h
      obtain ⟨h1, h2⟩ := h
      simp only [removeAllAux, h1]
      simp only [Bool.false_eq_true, if_false]
      rw [ih cs h2]

theorem removeAll_noop {pat l : List Char} (h : hasOcc pat l = false) :
    removeAll pat l = l :=
  removeAllAux_noop pat l.length l h

theorem mem_removeAllAux (pat : List Char) :
    ∀ (fuel : Nat) (l : List Char) (c : Char),
      c ∈ removeAllAux pat fuel l → c ∈ l := by
  intro fuel
  induction fuel with
  | zero => intro l c h; cases l <;> simpa [removeAllAux] using h
  | succ n ih =>
    intro l c h
    cases l with
    | nil => simpa [removeAllAux] using h
    | cons d cs =>
      by_cases hp : pat.isPrefixOf (d :: cs) = true
      · simp only [removeAllAux, hp, if_pos] at h
        have := ih _ _ h
        have h2 := (List.drop_sublist (pat.length - 1) cs).subset this
        simp [h2]
      · simp only [Bool.not_eq_true] at hp
        simp only [removeAllAux, hp, Bool.false_eq_true, if_false,
          List.mem_cons] at h
        cases h with
        | inl h => simp [h]
        | inr h => simp [ih _ _ h]

theorem mem_removeAll {pat l : List Char} {c : Char}
    (h : c ∈ removeAll pat l) : c ∈ l :=
  mem_removeAllAux pat l.length l c h

theorem mem_foldl_removeAll (ps : List (List Char)) :
    ∀ (t : List Char) (c : Char),
      c ∈ ps.foldl (fun acc n => removeAll n acc) t → c ∈ t := by
  induction ps with
  | nil => intro t c h; simpa using h
  | cons p ps ih =>
    intro t c h
    simp only [List.foldl_cons] at h
    exact mem_removeAll (ih _ _ h)

theorem foldl_removeAll_noop (ps : List (List Char)) :
    ∀ (t : List Char), (∀ p ∈ ps, hasOcc p t = false) →
      ps.foldl (fun acc n => removeAll n acc) t = t := by
  induction ps with
  | nil => intro t _; rfl
  | cons p ps ih =>
    intro t h
    simp only [List.foldl_cons]
    rw [removeAll_noop (h p (by simp))]
    exact ih t (fun q hq => h q (by simp [hq]))

/-- Normal-form facts about every output of `clean_description`: only
lowercase letters, digits and plain spaces; no two adjacent spaces; no
leading or trailing whitespace. -/
theorem clean_description_norm (s : Option (List Char)) :
    (∀ c ∈ clean_description s, goodChar c = true) ∧
    noTwoSpaces (clean_description s) = true ∧
    headSpace (clean_description s) = false ∧
    lastSpace (clean_description s) = false := by
  cases s with
  | none =>
    refine ⟨?_, rfl, rfl, rfl⟩
    intro c hc
    simp [clean_description] at hc
  | some d =>
    simp only [clean_description]
    refine ⟨?_, ?_, headSpace_stripWS _, lastSpace_stripWS _⟩
    · intro c hc
      have h1 := mem_of_mem_stripWS hc
      apply mem_collapseWS_good _ _ _ h1
      intro e he
      have h2 := mem_foldl_removeAll _ _ _ he
      have h3 := mem_of_mem_stripWS h2
      have hok : ∀ x ∈ (d.map lowerChar).map subChar, okChar x = true := by
        intro x hx
        rw [List.mem_map] at hx
        obtain ⟨y, _, hy⟩ := hx
        rw [← hy]
        exact okChar_subChar y
      exact goodChar_imp_okChar (mem_collapseWS_good _ hok e h3)
    · exact noTwoSpaces_stripWS (noTwoSpaces_collapseWS _)

/-- C10: every `clean_description` output consists only of lowercase ASCII
letters, digits and single interior spaces, with no leading or trailing
whitespace; in particular the pipe delimiter never occurs in it. -/
theorem clean_description_output_charset (s : Option (List Char)) :
    (∀ c ∈ clean_description s, goodChar c = true) ∧
    noTwoSpaces (clean_description s) = true ∧
    headSpace (clean_description s) = false ∧
    lastSpace (clean_description s) = false ∧
    '|' ∉ clean_description s := by
  obtain ⟨h1, h2, h3, h4⟩ := clean_description_norm s
  refine ⟨h1, h2, h3, h4, ?_⟩
  intro hmem
  have hp := h1 _ hmem
  revert hp
  decide

/-- C4 amended: `clean_description` is idempotent on every input whose
cleaned form contains no noise phrase as a substring (the general statement
fails because a removal can create a fresh noise occurrence). -/
theorem clean_description_idempotent_of_noise_free (s : List Char)
    (h : ∀ p ∈ NOISE_PHRASES, hasOcc p (clean_description (some s)) = false) :
    clean_description (some (clean_description (some s))) =
      clean_description (some s) := by
  obtain ⟨hg, hn, hh, hl⟩ := clean_description_norm (some s)
  generalize ht : clean_description (some s) = t at *
  have hmap1 : t.map lowerChar = t :=
    map_id_of_mem _ (fun c hc => lowerChar_of_good (hg c hc))
  have hmap2 : t.map subChar = t :=
    map_id_of_mem _ (fun c hc => subChar_of_good (hg c hc))
  have hfix : stripWS (collapseWS t) = t := by
    rw [collapseWS_eq_self _ hg hn, stripWS_eq_self hh hl]
  simp only [clean_description]
  rw [hmap1, hmap2, hfix, foldl_removeAll_noop _ _ h, hfix]

/-- Witness for C4's amended theorem at the concrete noise-free input
`"starbucks 4512"`. -/
theorem clean_description_idempotent_witness :
    (∀ p ∈ NOISE_PHRASES,
      hasOcc p (clean_description (some (strChars "starbucks 4512"))) = false) ∧
    clean_description (some (clean_description (some (strChars "starbucks 4512")))) =
      clean_description (some (strChars "starbucks 4512")) :=
  ⟨by decide, clean_description_idempotent_of_noise_free _ (by decide)⟩

/-! ## Identity hasher: `compute_dedupe_hash` (SHA-256 over the pipe-joined key) -/

/-- Rotate a 32-bit word right by `n` bits. -/
def rotr (n x : Nat) : Nat := ((x >>> n) ||| (x <<< (32 - n))) % 2 ^ 32

/-- Logical right shift. -/
def shr (n x : Nat) : Nat := x >>> n

/-- Bitwise complement on 32-bit words. -/
def wnot (x : Nat) : Nat := x ^^^ 0xffffffff

def bsig0 (x : Nat) : Nat := rotr 2 x ^^^ rotr 13 x ^^^ rotr 22 x

def bsig1 (x : Nat) : Nat := rotr 6 x ^^^ rotr 11 x ^^^ rotr 25 x

def ssig0 (x : Nat) : Nat := rotr 7 x ^^^ rotr 18 x ^^^ shr 3 x

def ssig1 (x : Nat) : Nat := rotr 17 x ^^^ rotr 19 x ^^^ shr 10 x

def chf (e f g : Nat) : Nat := (e &&& f) ^^^ (wnot e &&& g)

def majf (a b c : Nat) : Nat := (a &&& b) ^^^ (a &&& c) ^^^ (b &&& c)

/-- The 64 SHA-256 round constants. -/
def K256 : List Nat :=
  [1116352408, 1899447441, 3049323471, 3921009573, 961987163,
   1508970993, 2453635748, 2870763221, 3624381080, 310598401,
   607225278, 1426881987, 1925078388, 2162078206, 2614888103,
   3248222580, 3835390401, 4022224774, 264347078, 604807628,
   770255983, 1249150122, 1555081692, 1996064986, 2554220882,
   2821834349, 2952996808, 3210313671, 3336571891, 3584528711,
   113926993, 338241895, 666307205, 773529912, 1294757372,
   1396182291, 1695183700, 1986661051, 2177026350, 2456956037,
   2730485921, 2820302411, 3259730800, 3345764771, 3516065817,
   3600352804, 4094571909, 275423344, 430227734, 506948616,
   659060556, 883997877, 958139571, 1322822218, 1537002063,
   1747873779, 1955562222, 2024104815, 2227730452, 2361852424,
   2428436474, 2756734187, 3204031479, 3329325298]

/-- The eight 32-bit words of a SHA-256 state. -/
structure H8 where
  a : Nat
  b : Nat
  c : Nat
  d : Nat
  e : Nat
  f : Nat
  g : Nat
  h : Nat
deriving DecidableEq

/-- SHA-256 initial state. -/
def initH : H8 :=
  ⟨1779033703, 3144134277, 1013904242,
   2773480762, 1359893119, 2600822924,
   528734635, 1541459225⟩

/-- Next word of the message schedule from the words computed so far. -/
def newWord (ws : List Nat) : Nat :=
  let n := ws.length
  (ssig1 (ws.getD (n - 2) 0) + ws.getD (n - 7) 0 +
   ssig0 (ws.getD (n - 15) 0) + ws.getD (n - 16) 0) % 2 ^ 32

/-- Extend the 16 block words by `k` further schedule words. -/
def extendW : Nat → List Nat → List Nat
  | 0, ws => ws
  | k + 1, ws => extendW k (ws ++ [newWord ws])

/-- One SHA-256 compression round, fed the pair (round constant, word). -/
def round1 (st : H8) (kw : Nat × Nat) : H8 :=
  let t1 := (st.h + bsig1 st.e + chf st.e st.f st.g + kw.1 + kw.2) % 2 ^ 32
  let t2 := (bsig0 st.a + majf st.a st.b st.c) % 2 ^ 32
  ⟨(t1 + t2) % 2 ^ 32, st.a, st.b, st.c, (st.d + t1) % 2 ^ 32, st.e, st.f, st.g⟩

/-- Componentwise 32-bit addition of states. -/
def add8 (x y : H8) : H8 :=
  ⟨(x.a + y.a) % 2 ^ 32, (x.b + y.b) % 2 ^ 32, (x.c + y.c) % 2 ^ 32,
   (x.d + y.d) % 2 ^ 32, (x.e + y.e) % 2 ^ 32, (x.f + y.f) % 2 ^ 32,
   (x.g + y.g) % 2 ^ 32, (x.h + y.h) % 2 ^ 32⟩

/-- Compress one 16-word block into the running state. -/
def processBlock (st : H8) (block : List Nat) : H8 :=
  let w := extendW 48 block
  add8 st ((K256.zip w).foldl round1 st)

/-- The `n` big-endian bytes of `x`. -/
def beBytes : Nat → Nat → List Nat
  | 0, _ => []
  | k + 1, x => beBytes k (x / 256) ++ [x % 256]

/-- Split a list into chunks of `n` elements (length as structural fuel). -/
def groupNAux (n : Nat) : Nat → List Nat → List (List Nat)
  | 0, _ => []
  | _, [] => []
  | fuel + 1, x :: xs => (x :: xs.take (n - 1)) :: groupNAux n fuel (xs.drop (n - 1))

/-- Split a list into chunks of `n` elements. -/
def groupN (n : Nat) (l : List Nat) : List (List Nat) := groupNAux n l.length l

/-- Big-endian 32-bit words from a byte list. -/
def bytesToWords (bs : List Nat) : List Nat :=
  (groupN 4 bs).map (fun b => b.foldl (fun a x => a * 256 + x) 0)

/-- Number of zero padding bytes so that message, `0x80`, zeros and the
8-byte length total a multiple of 64 bytes. -/
def padZeros (len : Nat) : Nat := (64 - (len + 9) % 64) % 64

/-- SHA-256 of a byte list, as its 32 digest bytes (FIPS 180-4; checked
against the standard test vectors for the empty, one-block and two-block
messages). -/
def sha256 (msg : List Nat) : List Nat :=
  let padded := msg ++ [0x80] ++ List.replicate (padZeros msg.length) 0 ++
    beBytes 8 (msg.length * 8)
  let blocks := groupN 16 (bytesToWords padded)
  let fin := blocks.foldl processBlock initH
  beBytes 4 fin.a ++ beBytes 4 fin.b ++ beBytes 4 fin.c ++ beBytes 4 fin.d ++
  beBytes 4 fin.e ++ beBytes 4 fin.f ++ beBytes 4 fin.g ++ beBytes 4 fin.h

/-- Lowercase hex digit. -/
def hexChar (n : Nat) : Char :=
  if n < 10 then Char.ofNat (48 + n) else Char.ofNat (87 + n)

/-- Lowercase hexadecimal rendering of a byte list (`hexdigest()`). -/
def hexOfBytes (bs : List Nat) : List Char :=
  bs.foldr (fun b acc => hexChar (b / 16) :: hexChar (b % 16) :: acc) []

/-- UTF-8 encoding of one character. -/
def utf8Char (c : Char) : List Nat :=
  let n := c.toNat
  if n < 0x80 then [n]
  else if n < 0x800 then [0xc0 + n / 64, 0x80 + n % 64]
  else if n < 0x10000 then [0xe0 + n / 4096, 0x80 + (n / 64) % 64, 0x80 + n % 64]
  else [0xf0 + n / 262144, 0x80 + (n / 4096) % 64, 0x80 + (n / 64) % 64, 0x80 + n % 64]

/-- UTF-8 encoding of a string (`str.encode("utf-8")`). -/
def utf8Encode (s : List Char) : List Nat :=
  s.foldr (fun c acc => utf8Char c ++ acc) []

/-- ASCII digit character of a digit value. -/
def digitChar (d : Nat) : Char := Char.ofNat (48 + d)

/-- Decimal digits of `n`, most significant first (fuel-based recursion). -/
def natCharsAux : Nat → Nat → List Char
  | 0, _ => []
  | fuel + 1, n =>
    if n < 10 then [digitChar n]
    else natCharsAux fuel (n / 10) ++ [digitChar (n % 10)]

/-- Python's `str` of a natural number. -/
def natChars (n : Nat) : List Char := natCharsAux (n + 1) n

/-- Python's `str` of an integer. -/
def intChars (z : Int) : List Char :=
  if z < 0 then '-' :: natChars z.natAbs else natChars z.natAbs

/-- Embedding of `compute_dedupe_hash` from `ingest_finance.py`: the lowercase hex
SHA-256 digest of the UTF-8 bytes of the f-string joining txn_date,
amount_cents, desc_clean and account_id with pipes, in that order (no
escaping of the pipe delimiter). -/
def compute_dedupe_hash (txn_date : List Char) (amount_cents : Int)
    (desc_clean : List Char) (account_id : List Char) : List Char :=
  let key := txn_date ++ '|' :: intChars amount_cents ++
    '|' :: desc_clean ++ '|' :: account_id
  hexOfBytes (sha256 (utf8Encode key))

theorem length_beBytes (n : Nat) : ∀ x : Nat, (beBytes n x).length = n := by
  induction n with
  | zero => intro x; rfl
  | succ k ih => intro x; simp [beBytes, ih]

theorem length_sha256 (msg : List Nat) : (sha256 msg).length = 32 := by
  unfold sha256
  simp [List.length_append, length_beBytes]

theorem length_hexOfBytes (bs : List Nat) :
    (hexOfBytes bs).length = 2 * bs.length := by
  induction bs with
  | nil => rfl
  | cons b rest ih =>
    simp only [hexOfBytes, List.foldr_cons, List.length_cons] at *
    omega

/-- C6: `compute_dedupe_hash` is exactly the lowercase hex SHA-256 digest of
the UTF-8 encoding of the pipe-joined `(txn_date, amount_cents, desc_clean,
account_id)` key in that order; the fingerprint has fixed length 64, and
identical 4-tuples always produce the same fingerprint. -/
theorem compute_dedupe_hash_spec :
    (∀ (d : List Char) (a : Int) (dc acc : List Char),
      compute_dedupe_hash d a dc acc =
        hexOfBytes (sha256 (utf8Encode
          (d ++ '|' :: intChars a ++ '|' :: dc ++ '|' :: acc)))) ∧
    (∀ (d : List Char) (a : Int) (dc acc : List Char),
      (compute_dedupe_hash d a dc acc).length = 64) ∧
    (∀ (d d2 : List Char) (a a2 : Int) (dc dc2 acc acc2 : List Char),
      d = d2 → a = a2 → dc = dc2 → acc = acc2 →
      compute_dedupe_hash d a dc acc = compute_dedupe_hash d2 a2 dc2 acc2) := by
  refine ⟨fun d a dc acc => rfl, ?_, ?_⟩
  · intro d a dc acc
    unfold compute_dedupe_hash
    rw [length_hexOfBytes, length_sha256]
  · intro d d2 a a2 dc dc2 acc acc2 h1 h2 h3 h4
    rw [h1, h2, h3, h4]

/-- Witness for C6's determinism clause at a concrete 4-tuple. -/
theorem compute_dedupe_hash_spec_witness :
    strChars "2024-01-01" = strChars "2024-01-01" ∧
    compute_dedupe_hash (strChars "2024-01-01") 1235
        (strChars "starbucks 4512") (strChars "A1") =
      compute_dedupe_hash (strChars "2024-01-01") 1235
        (strChars "starbucks 4512") (strChars "A1") :=
  ⟨rfl, compute_dedupe_hash_spec.2.2 _ _ _ _ _ _ _ _ rfl rfl rfl rfl⟩

/-! ## Store model: accounts, transactions, connection -/

/-- A row of the `accounts` table. -/
structure Account where
  account_id : List Char
  institution : List Char
  name : List Char
  acct_type : List Char
deriving DecidableEq

/-- A row of the `transactions` table. -/
structure Txn where
  id : Nat
  txn_date : List Char
  posted_date : Option (List Char)
  amount_cents : Int
  currency : List Char
  description_raw : List Char
  description_clean : List Char
  account_id : List Char
  category_id : Option Nat
  dedupe_hash : List Char
deriving DecidableEq

/-- The kinds of `sqlite3.IntegrityError` relevant to this schema: the
UNIQUE constraint on `dedupe_hash`, the foreign key on `account_id`, and
the CHECK constraint on the account type. -/
inductive IntegrityErr where
  | dupFingerprint
  | fkViolation
  | checkViolation
deriving DecidableEq

/-- The database contents.  `nextId` models the supply of fresh `uuid4`
primary keys. -/
structure Store where
  accounts : List Account
  transactions : List Txn
  nextId : Nat
deriving DecidableEq

/-- A `sqlite3` connection: `pending` is the state seen inside the open
transaction, `committed` the durable state; `con.commit()` copies pending
to committed. -/
structure Conn where
  committed : Store
  pending : Store
deriving DecidableEq

/-- A single `INSERT INTO transactions ...`: rejected with an
`IntegrityError` when the fingerprint collides with an existing row
(UNIQUE on `dedupe_hash`) or when `account_id` references no account row
(foreign key, `PRAGMA foreign_keys = ON`); otherwise the row is appended,
never overwriting an existing row. -/
def insertTxn (st : Store) (t : Txn) : Except IntegrityErr Store :=
  if st.transactions.any (fun u => u.dedupe_hash == t.dedupe_hash) then
    .error .dupFingerprint
  else if st.accounts.any (fun a => a.account_id == t.account_id) then
    .ok { st with transactions := st.transactions ++ [t] }
  else .error .fkViolation

/-- An intermediate row as consumed by `insert_transactions` (the common
shape produced by the source adapters). -/
structure TxnRow where
  txn_date : List Char
  posted_date : Option (List Char)
  amount : Option (List Char)
  currency : Option (List Char)
  description_raw : List Char
  description_clean : List Char
  account_id : List Char
deriving DecidableEq

/-- The currency column with its default: the row's currency when present,
otherwise USD. -/
def rowCurrency (r : TxnRow) : List Char := r.currency.getD (strChars "USD")

/-- The `transactions` row `insert_transactions` builds from an
intermediate row: fresh id, normalized amount, computed fingerprint,
`category_id` always null. -/
def mkTxn (st : Store) (r : TxnRow) (cents : Int) : Txn :=
  { id := st.nextId, txn_date := r.txn_date, posted_date := r.posted_date,
    amount_cents := cents, currency := rowCurrency r,
    description_raw := r.description_raw,
    description_clean := r.description_clean,
    account_id := r.account_id, category_id := none,
    dedupe_hash := compute_dedupe_hash r.txn_date cents
      r.description_clean r.account_id }

/-- Consume one fresh id (one `uuid4` call). -/
def bumpId (st : Store) : Store := { st with nextId := st.nextId + 1 }

/-- Append a transaction row. -/
def appendTxn (st : Store) (t : Txn) : Store :=
  { st with transactions := st.transactions ++ [t] }

/-- The loop body of `insert_transactions`: for each row normalize the
amount (an `InvalidAmount` failure propagates immediately), build the
transaction row with its fingerprint, and attempt the insert; any
`sqlite3.IntegrityError` is caught and counted as a skip, a success is
counted as an insert. -/
def insertLoop : Store → Nat → Nat → List TxnRow →
    Store × Except AmountErr (Nat × Nat)
  | st, ins, sk, [] => (st, .ok (ins, sk))
  | st, ins, sk, r :: rs =>
    match to_cents r.amount with
    | .error e => (st, .error e)
    | .ok cents =>
      match insertTxn (bumpId st) (mkTxn st r cents) with
      | .ok st2 => insertLoop st2 (ins + 1) sk rs
      | .error _ => insertLoop (bumpId st) ins (sk + 1) rs

/-- Embedding of `insert_transactions` from `ingest_finance.py`: run the loop over all
rows, then `con.commit()`.  On an uncaught exception the commit is never
reached, so the committed state is unchanged and no summary is produced. -/
def insert_transactions (con : Conn) (rows : List TxnRow) :
    Conn × Except AmountErr (Nat × Nat) :=
  match insertLoop con.pending 0 0 rows with
  | (pend, .ok counts) => ({ committed := pend, pending := pend }, .ok counts)
  | (pend, .error e) => ({ committed := con.committed, pending := pend }, .error e)

def debitStr : List Char := strChars "debit"

def creditStr : List Char := strChars "credit"

/-- Embedding of `upsert_account` from `ingest_finance.py`: `INSERT ... ON
CONFLICT(account_id) DO UPDATE` of all non-key fields, subject to the CHECK
constraint on the account type. -/
def upsert_account (st : Store) (account_id institution name acct_type : List Char) :
    Except IntegrityErr Store :=
  if acct_type == debitStr || acct_type == creditStr then
    if st.accounts.any (fun a => a.account_id == account_id) then
      .ok { st with accounts := st.accounts.map (fun a =>
        if a.account_id == account_id then
          { account_id := account_id, institution := institution,
            name := name, acct_type := acct_type }
        else a) }
    else
      .ok { st with accounts := st.accounts ++
        [{ account_id := account_id, institution := institution,
           name := name, acct_type := acct_type }] }
  else .error .checkViolation

/-- The fingerprint `insert_transactions` computes for a row, when the
amount normalizes. -/
def rowFp (r : TxnRow) : Option (List Char) :=
  match to_cents r.amount with
  | .ok c => some (compute_dedupe_hash r.txn_date c r.description_clean r.account_id)
  | .error _ => none

/-- The dedupe hashes stored in a `Store`. -/
def storeHashes (st : Store) : List (List Char) :=
  st.transactions.map (fun t => t.dedupe_hash)

/-- Whether an account id has a row in the `accounts` table. -/
def registered (st : Store) (a : List Char) : Bool :=
  st.accounts.any (fun x => x.account_id == a)

theorem insertTxn_ok {st : Store} {t : Txn}
    (hdup : t.dedupe_hash ∉ storeHashes st)
    (hreg : registered st t.account_id = true) :
    insertTxn st t = .ok (appendTxn st t) := by
  have h1 : ¬(st.transactions.any (fun u => u.dedupe_hash == t.dedupe_hash) = true) := by
    simp only [List.any_eq_true, beq_iff_eq, not_exists]
    intro u hu
    rcases hu with ⟨humem, heq⟩
    exact hdup (by unfold storeHashes; exact heq ▸ List.mem_map_of_mem _ humem)
  unfold registered at hreg
  unfold insertTxn
  rw [if_neg h1, if_pos hreg]
  rfl

theorem insertTxn_dup {st : Store} {t : Txn}
    (hdup : t.dedupe_hash ∈ storeHashes st) :
    insertTxn st t = .error .dupFingerprint := by
  have h1 : st.transactions.any (fun u => u.dedupe_hash == t.dedupe_hash) = true := by
    simp only [List.any_eq_true, beq_iff_eq]
    unfold storeHashes at hdup
    obtain ⟨u, hu, he⟩ := List.mem_map.mp hdup
    exact ⟨u, hu, he⟩
  unfold insertTxn
  rw [if_pos h1]

theorem insertTxn_fk {st : Store} {t : Txn}
    (hdup : t.dedupe_hash ∉ storeHashes st)
    (hreg : registered st t.account_id = false) :
    insertTxn st t = .error .fkViolation := by
  have h1 : ¬(st.transactions.any (fun u => u.dedupe_hash == t.dedupe_hash) = true) := by
    simp only [List.any_eq_true, beq_iff_eq, not_exists]
    intro u hu
    rcases hu with ⟨humem, heq⟩
    exact hdup (by unfold storeHashes; exact heq ▸ List.mem_map_of_mem _ humem)
  unfold registered at hreg
  unfold insertTxn
  rw [if_neg h1, if_neg (by simp [hreg])]

@[simp] theorem storeHashes_bumpId (st : Store) :
    storeHashes (bumpId st) = storeHashes st := rfl

@[simp] theorem registered_bumpId (st : Store) (a : List Char) :
    registered (bumpId st) a = registered st a := rfl

@[simp] theorem accounts_bumpId (st : Store) : (bumpId st).accounts = st.accounts := rfl

@[simp] theorem transactions_bumpId (st : Store) :
    (bumpId st).transactions = st.transactions := rfl

@[simp] theorem storeHashes_appendTxn (st : Store) (t : Txn) :
    storeHashes (appendTxn st t) = storeHashes st ++ [t.dedupe_hash] := by
  unfold storeHashes appendTxn
  simp

@[simp] theorem registered_appendTxn (st : Store) (t : Txn) (a : List Char) :
    registered (appendTxn st t) a = registered st a := rfl

@[simp] theorem accounts_appendTxn (st : Store) (t : Txn) :
    (appendTxn st t).accounts = st.accounts := rfl

@[simp] theorem transactions_appendTxn (st : Store) (t : Txn) :
    (appendTxn st t).transactions = st.transactions ++ [t] := rfl

@[simp] theorem mkTxn_dedupe (st : Store) (r : TxnRow) (cents : Int) :
    (mkTxn st r cents).dedupe_hash =
      compute_dedupe_hash r.txn_date cents r.description_clean r.account_id := rfl

@[simp] theorem mkTxn_account (st : Store) (r : TxnRow) (cents : Int) :
    (mkTxn st r cents).account_id = r.account_id := rfl

theorem insertLoop_all_insert :
    ∀ (rows : List TxnRow) (st : Store) (ins sk : Nat),
      (∀ r ∈ rows, ∃ h, rowFp r = some h ∧ h ∉ storeHashes st ∧
        registered st r.account_id = true) →
      (rows.filterMap rowFp).Nodup →
      ∃ st2, insertLoop st ins sk rows = (st2, .ok (ins + rows.length, sk)) ∧
        storeHashes st2 = storeHashes st ++ rows.filterMap rowFp ∧
        st2.accounts = st.accounts ∧
        ∃ ts, st2.transactions = st.transactions ++ ts := by
  intro rows
  induction rows with
  | nil =>
    intro st ins sk _ _
    exact ⟨st, by simp [insertLoop], by simp, rfl, [], by simp⟩
  | cons r rs ih =>
    intro st ins sk hall hnd
    obtain ⟨h, hfp, hnot, hreg⟩ := hall r (by simp)
    cases hc : to_cents r.amount with
    | error e =>
      exfalso
      unfold rowFp at hfp
      rw [hc] at hfp
      simp at hfp
    | ok cents =>
      have hh : compute_dedupe_hash r.txn_date cents r.description_clean
          r.account_id = h := by
        unfold rowFp at hfp
        rw [hc] at hfp
        simpa using hfp
      have hfm : (r :: rs).filterMap rowFp = h :: rs.filterMap rowFp := by
        simp [List.filterMap_cons, hfp]
      rw [hfm] at hnd
      have hndr := hnd.of_cons
      have hnotin : h ∉ rs.filterMap rowFp := (List.nodup_cons.mp hnd).1
      have hok : insertTxn (bumpId st) (mkTxn st r cents) =
          .ok (appendTxn (bumpId st) (mkTxn st r cents)) := by
        apply insertTxn_ok
        · simpa [hh] using hnot
        · simpa using hreg
      simp only [insertLoop, hc, hok]
      have hall2 : ∀ x ∈ rs, ∃ hx, rowFp x = some hx ∧
          hx ∉ storeHashes (appendTxn (bumpId st) (mkTxn st r cents)) ∧
          registered (appendTxn (bumpId st) (mkTxn st r cents))
            x.account_id = true := by
        intro x hx
        obtain ⟨hx2, hx2fp, hx2not, hx2reg⟩ := hall x (by simp [hx])
        refine ⟨hx2, hx2fp, ?_, by simpa using hx2reg⟩
        simp only [storeHashes_appendTxn, storeHashes_bumpId, mkTxn_dedupe,
          hh, List.mem_append, List.mem_singleton]
        rintro (h1 | h2)
        · exact hx2not h1
        · exact hnotin (h2 ▸ List.mem_filterMap.mpr ⟨x, hx, hx2fp⟩)
      obtain ⟨st2, hrun, hhash, hacc, ts, htr⟩ := ih _ (ins + 1) sk hall2 hndr
      refine ⟨st2, ?_, ?_, ?_, ⟨mkTxn st r cents :: ts, ?_⟩⟩
      · rw [List.length_cons,
          (by omega : ins + (rs.length + 1) = ins + 1 + rs.length)]
        exact hrun
      · rw [hhash, hfm]
        simp [hh]
      · simpa using hacc
      · rw [htr]
        simp

theorem insertLoop_all_skip :
    ∀ (rows : List TxnRow) (st : Store) (ins sk : Nat),
      (∀ r ∈ rows, ∃ h, rowFp r = some h ∧ h ∈ storeHashes st) →
      ∃ st2, insertLoop st ins sk rows = (st2, .ok (ins, sk + rows.length)) ∧
        st2.transactions = st.transactions ∧ st2.accounts = st.accounts := by
  intro rows
  induction rows with
  | nil =>
    intro st ins sk _
    exact ⟨st, by simp [insertLoop], rfl, rfl⟩
  | cons r rs ih =>
    intro st ins sk hall
    obtain ⟨h, hfp, hin⟩ := hall r (by simp)
    cases hc : to_cents r.amount with
    | error e =>
      exfalso
      unfold rowFp at hfp
      rw [hc] at hfp
      simp at hfp
    | ok cents =>
      have hh : compute_dedupe_hash r.txn_date cents r.description_clean
          r.account_id = h := by
        unfold rowFp at hfp
        rw [hc] at hfp
        simpa using hfp
      have hdup : insertTxn (bumpId st) (mkTxn st r cents) =
          .error .dupFingerprint := by
        apply insertTxn_dup
        simpa [hh] using hin
      simp only [insertLoop, hc, hdup]
      have hall2 : ∀ x ∈ rs, ∃ hx, rowFp x = some hx ∧
          hx ∈ storeHashes (bumpId st) := by
        intro x hx
        obtain ⟨hx2, ha, hb⟩ := hall x (by simp [hx])
        exact ⟨hx2, ha, by simpa using hb⟩
      obtain ⟨st2, hrun, ht, ha⟩ := ih (bumpId st) ins (sk + 1) hall2
      refine ⟨st2, ?_, by simpa using ht, by simpa using ha⟩
      rw [List.length_cons,
        (by omega : sk + (rs.length + 1) = sk + 1 + rs.length)]
      exact hrun

/-- C7 amended: for rows with valid amounts and pairwise-distinct
fingerprints, all referencing registered accounts, a first
`insert_transactions` run against a store with no transactions inserts all
N rows and skips none; re-running the same rows yields 0 inserts and N
skips, leaves the transaction rows untouched, and every stored fingerprint
stays unique. -/
theorem insert_transactions_reimport_idempotent
    (rows : List TxnRow) (accts : List Account) (n : Nat)
    (hval : ∀ r ∈ rows, (rowFp r).isSome = true)
    (hnd : (rows.filterMap rowFp).Nodup)
    (hacc : ∀ r ∈ rows,
      (accts.any (fun x => x.account_id == r.account_id)) = true) :
    (insert_transactions ⟨⟨accts, [], n⟩, ⟨accts, [], n⟩⟩ rows).2 =
      .ok (rows.length, 0) ∧
    (insert_transactions
      (insert_transactions ⟨⟨accts, [], n⟩, ⟨accts, [], n⟩⟩ rows).1 rows).2 =
      .ok (0, rows.length) ∧
    (insert_transactions
      (insert_transactions ⟨⟨accts, [], n⟩, ⟨accts, [], n⟩⟩ rows).1
        rows).1.committed.transactions =
      (insert_transactions ⟨⟨accts, [], n⟩, ⟨accts, [], n⟩⟩
        rows).1.committed.transactions ∧
    (storeHashes (insert_transactions
      (insert_transactions ⟨⟨accts, [], n⟩, ⟨accts, [], n⟩⟩ rows).1
        rows).1.committed).Nodup := by
  have hall1 : ∀ r ∈ rows, ∃ h, rowFp r = some h ∧
      h ∉ storeHashes (⟨accts, [], n⟩ : Store) ∧
      registered ⟨accts, [], n⟩ r.account_id = true := by
    intro r hr
    obtain ⟨h, hh⟩ := Option.isSome_iff_exists.mp (hval r hr)
    refine ⟨h, hh, ?_, hacc r hr⟩
    simp [storeHashes]
  obtain ⟨st2, hrun, hhash, hacc2, ts, htr⟩ :=
    insertLoop_all_insert rows ⟨accts, [], n⟩ 0 0 hall1 hnd
  have hhash2 : storeHashes st2 = rows.filterMap rowFp := by
    rw [hhash]
    simp [storeHashes]
  have hfirst : insert_transactions ⟨⟨accts, [], n⟩, ⟨accts, [], n⟩⟩ rows =
      ({ committed := st2, pending := st2 }, .ok (rows.length, 0)) := by
    unfold insert_transactions
    rw [show (⟨⟨accts, [], n⟩, ⟨accts, [], n⟩⟩ : Conn).pending =
      (⟨accts, [], n⟩ : Store) from rfl, hrun]
    simp
  have hall2 : ∀ r ∈ rows, ∃ h, rowFp r = some h ∧ h ∈ storeHashes st2 := by
    intro r hr
    obtain ⟨h, hh⟩ := Option.isSome_iff_exists.mp (hval r hr)
    refine ⟨h, hh, ?_⟩
    rw [hhash2]
    exact List.mem_filterMap.mpr ⟨r, hr, hh⟩
  obtain ⟨st3, hrun2, htr3, hacc3⟩ := insertLoop_all_skip rows st2 0 0 hall2
  have hsecond : insert_transactions ({ committed := st2, pending := st2 } : Conn) rows =
      ({ committed := st3, pending := st3 }, .ok (0, rows.length)) := by
    unfold insert_transactions
    rw [show ({ committed := st2, pending := st2 } : Conn).pending = st2 from rfl,
      hrun2]
    simp
  rw [hfirst]
  simp only [hsecond]
  refine ⟨by trivial, by trivial, htr3, ?_⟩
  have : storeHashes st3 = storeHashes st2 := by
    unfold storeHashes
    rw [htr3]
  rw [this, hhash2]
  exact hnd

/-- A first concrete intermediate row for the re-import witness. -/
def wRow1 : TxnRow :=
  { txn_date := strChars "2024-01-01", posted_date := none,
    amount := some (strChars "5.00"), currency := none,
    description_raw := strChars "Coffee", description_clean := strChars "coffee",
    account_id := strChars "a1" }

/-- A second concrete intermediate row, differing in date. -/
def wRow2 : TxnRow :=
  { txn_date := strChars "2024-01-02", posted_date := none,
    amount := some (strChars "5.00"), currency := none,
    description_raw := strChars "Coffee", description_clean := strChars "coffee",
    account_id := strChars "a1" }

/-- The registered account the witness rows reference. -/
def wAcct : Account :=
  { account_id := strChars "a1", institution := strChars "X",
    name := strChars "Checking", acct_type := debitStr }

/-- Witness for C7 at two concrete rows against a store holding only the
registered account. -/
theorem insert_transactions_reimport_idempotent_witness :
    (∀ r ∈ [wRow1, wRow2], (rowFp r).isSome = true) ∧
    ([wRow1, wRow2].filterMap rowFp).Nodup ∧
    (∀ r ∈ [wRow1, wRow2],
      ([wAcct].any (fun x => x.account_id == r.account_id)) = true) ∧
    ((insert_transactions ⟨⟨[wAcct], [], 0⟩, ⟨[wAcct], [], 0⟩⟩
        [wRow1, wRow2]).2 = .ok ([wRow1, wRow2].length, 0) ∧
      (insert_transactions
        (insert_transactions ⟨⟨[wAcct], [], 0⟩, ⟨[wAcct], [], 0⟩⟩
          [wRow1, wRow2]).1 [wRow1, wRow2]).2 =
        .ok (0, [wRow1, wRow2].length) ∧
      (insert_transactions
        (insert_transactions ⟨⟨[wAcct], [], 0⟩, ⟨[wAcct], [], 0⟩⟩
          [wRow1, wRow2]).1 [wRow1, wRow2]).1.committed.transactions =
        (insert_transactions ⟨⟨[wAcct], [], 0⟩, ⟨[wAcct], [], 0⟩⟩
          [wRow1, wRow2]).1.committed.transactions ∧
      (storeHashes (insert_transactions
        (insert_transactions ⟨⟨[wAcct], [], 0⟩, ⟨[wAcct], [], 0⟩⟩
          [wRow1, wRow2]).1 [wRow1, wRow2]).1.committed).Nodup) :=
  ⟨by decide, by decide, by decide,
    insert_transactions_reimport_idempotent [wRow1, wRow2] [wAcct] 0
      (by decide) (by decide) (by decide)⟩

theorem insertLoop_ok_of_valid :
    ∀ (rows : List TxnRow) (st : Store) (ins sk : Nat),
      (∀ r ∈ rows, (rowFp r).isSome = true) →
      ∃ c, (insertLoop st ins sk rows).2 = .ok c := by
  intro rows
  induction rows with
  | nil => intro st ins sk _; exact ⟨(ins, sk), rfl⟩
  | cons r rs ih =>
    intro st ins sk hall
    have hv := hall r (by simp)
    cases hc : to_cents r.amount with
    | error e =>
      exfalso
      unfold rowFp at hv
      rw [hc] at hv
      simp at hv
    | ok cents =>
      simp only [insertLoop, hc]
      cases hins : insertTxn (bumpId st) (mkTxn st r cents) with
      | ok st2 => exact ih st2 (ins + 1) sk (fun x hx => hall x (by simp [hx]))
      | error e2 =>
        exact ih (bumpId st) ins (sk + 1) (fun x hx => hall x (by simp [hx]))

theorem insertTxn_error_of_unregistered {st : Store} {t : Txn}
    (hreg : registered st t.account_id = false) :
    ∃ e, insertTxn st t = .error e := by
  unfold insertTxn
  by_cases hdup :
      (st.transactions.any (fun u => u.dedupe_hash == t.dedupe_hash)) = true
  · exact ⟨.dupFingerprint, by rw [if_pos hdup]⟩
  · refine ⟨.fkViolation, ?_⟩
    unfold registered at hreg
    rw [if_neg hdup, if_neg (by simp [hreg])]

/-- The concrete connection with empty accounts and transactions tables. -/
def emptyConn : Conn := ⟨⟨[], [], 0⟩, ⟨[], [], 0⟩⟩

/-- A concrete row whose `account_id` is registered nowhere. -/
def rowNoAcct : TxnRow :=
  { txn_date := strChars "2024-03-05", posted_date := none,
    amount := some (strChars "7.25"), currency := none,
    description_raw := strChars "Coffee", description_clean := strChars "coffee",
    account_id := strChars "missing" }

/-- C1 counterexample: a run whose single row references an unregistered
account does NOT fail — `insert_transactions` returns normally, counting
the foreign-key rejection as a duplicate skip (`inserted = 0`,
`skipped = 1`), because the `except sqlite3.IntegrityError` handler catches
the foreign-key violation exactly like a fingerprint collision. -/
theorem insert_transactions_swallows_fk :
    (insert_transactions emptyConn [rowNoAcct]).2 = .ok (0, 1) := by
  decide

/-- C1 amended: the loop distinguishes nothing inside `IntegrityError`:
when every amount normalizes, `insert_transactions` always returns a
summary (no constraint violation propagates), and a single-row run whose
account is unregistered is counted as one skip. -/
theorem insert_transactions_integrity_skip :
    (∀ (con : Conn) (rows : List TxnRow),
      (∀ r ∈ rows, (rowFp r).isSome = true) →
      ∃ c, (insert_transactions con rows).2 = Except.ok c) ∧
    (∀ (con : Conn) (r : TxnRow), (rowFp r).isSome = true →
      registered con.pending r.account_id = false →
      (insert_transactions con [r]).2 = Except.ok (0, 1)) := by
  constructor
  · intro con rows hval
    obtain ⟨c, hcc⟩ := insertLoop_ok_of_valid rows con.pending 0 0 hval
    refine ⟨c, ?_⟩
    unfold insert_transactions
    cases hl : insertLoop con.pending 0 0 rows with
    | mk pend res =>
      rw [hl] at hcc
      simp only at hcc
      cases res with
      | ok counts => simpa using hcc
      | error e => simp at hcc
  · intro con r hval hreg
    cases hc : to_cents r.amount with
    | error e =>
      exfalso
      unfold rowFp at hval
      rw [hc] at hval
      simp at hval
    | ok cents =>
      obtain ⟨e2, hins⟩ := @insertTxn_error_of_unregistered
        (bumpId con.pending) (mkTxn con.pending r cents)
        (by simpa using hreg)
      unfold insert_transactions
      simp only [insertLoop, hc, hins]

/-- Witness for C1's amended theorem: the single-row run against the empty
store yields one skip. -/
theorem insert_transactions_integrity_skip_witness :
    (rowFp rowNoAcct).isSome = true ∧
    registered emptyConn.pending (rowNoAcct.account_id) = false ∧
    (insert_transactions emptyConn [rowNoAcct]).2 = Except.ok (0, 1) :=
  ⟨by decide, by decide,
    insert_transactions_integrity_skip.2 emptyConn rowNoAcct
      (by decide) (by decide)⟩

theorem insertLoop_fatal :
    ∀ (pre : List TxnRow) (st : Store) (ins sk : Nat) (bad : TxnRow)
      (e : AmountErr) (post : List TxnRow),
      (∀ r ∈ pre, (rowFp r).isSome = true) →
      to_cents bad.amount = .error e →
      insertLoop st ins sk (pre ++ bad :: post) =
        insertLoop st ins sk (pre ++ [bad]) ∧
      (insertLoop st ins sk (pre ++ [bad])).2 = .error e := by
  intro pre
  induction pre with
  | nil =>
    intro st ins sk bad e post hpre hbad
    constructor
    · simp only [List.nil_append, insertLoop, hbad]
    · simp only [List.nil_append, insertLoop, hbad]
  | cons p pre ih =>
    intro st ins sk bad e post hpre hbad
    have hv := hpre p (by simp)
    cases hc : to_cents p.amount with
    | error e2 =>
      exfalso
      unfold rowFp at hv
      rw [hc] at hv
      simp at hv
    | ok cents =>
      simp only [List.cons_append, insertLoop, hc]
      have hpre2 : ∀ r ∈ pre, (rowFp r).isSome = true :=
        fun x hx => hpre x (by simp [hx])
      cases hins : insertTxn (bumpId st) (mkTxn st p cents) with
      | ok st2 => exact ih st2 (ins + 1) sk bad e post hpre2 hbad
      | error e3 => exact ih (bumpId st) ins (sk + 1) bad e post hpre2 hbad

/-- C9: an `InvalidAmount` failure on any row aborts the whole
`insert_transactions` call: the call returns that error and no summary, the
committed store is exactly what it was before the call (the final
`con.commit()` is never reached), and the rows after the failing one are
never processed — the run is identical to the run truncated right after the
bad row. -/
theorem insert_transactions_invalid_amount_fatal
    (con : Conn) (pre post : List TxnRow) (bad : TxnRow) (e : AmountErr)
    (hpre : ∀ r ∈ pre, (rowFp r).isSome = true)
    (hbad : to_cents bad.amount = .error e) :
    (insert_transactions con (pre ++ bad :: post)).2 = .error e ∧
    (insert_transactions con (pre ++ bad :: post)).1.committed =
      con.committed ∧
    insert_transactions con (pre ++ bad :: post) =
      insert_transactions con (pre ++ [bad]) := by
  obtain ⟨heq, herr⟩ :=
    insertLoop_fatal pre con.pending 0 0 bad e post hpre hbad
  cases hl : insertLoop con.pending 0 0 (pre ++ [bad]) with
  | mk pend res =>
    rw [hl] at herr
    simp only at herr
    subst herr
    unfold insert_transactions
    rw [heq, hl]
    exact ⟨rfl, rfl, rfl⟩

/-- A concrete row whose amount does not parse as a decimal. -/
def wRowBad : TxnRow :=
  { txn_date := strChars "2024-01-03", posted_date := none,
    amount := some (strChars "oops"), currency := none,
    description_raw := strChars "Bad", description_clean := strChars "bad",
    account_id := strChars "a1" }

/-- Witness for C9: a concrete three-row batch whose middle row has an
unparseable amount. -/
theorem insert_transactions_invalid_amount_fatal_witness :
    (∀ r ∈ [wRow1], (rowFp r).isSome = true) ∧
    to_cents wRowBad.amount = .error AmountErr.invalidOperation ∧
    ((insert_transactions ⟨⟨[wAcct], [], 0⟩, ⟨[wAcct], [], 0⟩⟩
        ([wRow1] ++ wRowBad :: [wRow2])).2 =
        .error AmountErr.invalidOperation ∧
      (insert_transactions ⟨⟨[wAcct], [], 0⟩, ⟨[wAcct], [], 0⟩⟩
        ([wRow1] ++ wRowBad :: [wRow2])).1.committed =
        (⟨⟨[wAcct], [], 0⟩, ⟨[wAcct], [], 0⟩⟩ : Conn).committed ∧
      insert_transactions ⟨⟨[wAcct], [], 0⟩, ⟨[wAcct], [], 0⟩⟩
        ([wRow1] ++ wRowBad :: [wRow2]) =
        insert_transactions ⟨⟨[wAcct], [], 0⟩, ⟨[wAcct], [], 0⟩⟩
          ([wRow1] ++ [wRowBad])) :=
  ⟨by decide, by decide,
    insert_transactions_invalid_amount_fatal
      ⟨⟨[wAcct], [], 0⟩, ⟨[wAcct], [], 0⟩⟩ [wRow1] [wRow2] wRowBad
      AmountErr.invalidOperation (by decide) (by decide)⟩

theorem filter_no_match (aid : List Char) :
    ∀ (l : List Account), (∀ a ∈ l, (a.account_id == aid) = false) →
      l.filter (fun a => a.account_id == aid) = [] := by
  intro l h
  induction l with
  | nil => rfl
  | cons a l ih =>
    have ha := h a (by simp)
    simp only [List.filter_cons, ha, Bool.false_eq_true, if_false]
    exact ih (fun x hx => h x (by simp [hx]))

theorem map_upd_ids (aid inst nm ty : List Char) (l : List Account) :
    (l.map (fun a => if a.account_id == aid then
        ({ account_id := aid, institution := inst, name := nm,
           acct_type := ty } : Account)
      else a)).map (fun a => a.account_id) =
    l.map (fun a => a.account_id) := by
  induction l with
  | nil => rfl
  | cons a l ih =>
    simp only [List.map_cons, ih]
    by_cases h : (a.account_id == aid) = true
    · simp only [h, if_pos]
      rw [List.cons_eq_cons]
      exact ⟨(beq_iff_eq.mp h).symm, rfl⟩
    · simp only [Bool.not_eq_true] at h
      simp [h]

theorem filter_upd (aid inst nm ty : List Char) :
    ∀ (l : List Account),
      (l.map (fun a => a.account_id)).Nodup →
      l.any (fun a => a.account_id == aid) = true →
      (l.map (fun a => if a.account_id == aid then
          (⟨aid, inst, nm, ty⟩ : Account) else a)).filter
        (fun a => a.account_id == aid) = [⟨aid, inst, nm, ty⟩] := by
  intro l
  induction l with
  | nil => intro _ h; simp at h
  | cons a l ih =>
    intro hnd hany
    simp only [List.map_cons] at hnd ⊢
    by_cases h : (a.account_id == aid) = true
    · simp only [h, if_pos, List.filter_cons]
      have hkeep : ((⟨aid, inst, nm, ty⟩ : Account).account_id == aid) = true := by
        simp
      rw [if_pos hkeep]
      have haid : a.account_id = aid := beq_iff_eq.mp h
      have hnotin : aid ∉ l.map (fun a => a.account_id) := by
        have hh := (List.nodup_cons.mp hnd).1
        rw [haid] at hh
        exact hh
      have hno : ∀ x ∈ l, (x.account_id == aid) = false := by
        intro x hx
        rw [beq_eq_false_iff_ne]
        intro hcon
        exact hnotin (hcon ▸ List.mem_map_of_mem _ hx)
      have hfl : (l.map (fun a => if a.account_id == aid then
          (⟨aid, inst, nm, ty⟩ : Account) else a)).filter
            (fun a => a.account_id == aid) = [] := by
        apply filter_no_match
        intro b hb
        rw [List.mem_map] at hb
        obtain ⟨x, hx, hbx⟩ := hb
        rw [← hbx]
        have hxne := hno x hx
        simp only [hxne, Bool.false_eq_true, if_false]
      rw [hfl]
    · simp only [Bool.not_eq_true] at h
      simp only [h, Bool.false_eq_true, if_false, List.filter_cons, h]
      have hany2 : l.any (fun a => a.account_id == aid) = true := by
        simp only [List.any_cons, h, Bool.false_or] at hany
        exact hany
      exact ih (List.nodup_cons.mp hnd).2 hany2

/-- C8: the account upsert is keyed on the account id and last-write-wins
(fields in order: id, institution, name, type): with a valid type it
succeeds, afterwards exactly one row carries that id and it holds exactly
the new field values, id uniqueness is preserved and transactions are
untouched; the spec's concrete A1/X then A1/Y sequence leaves exactly the
single row (A1, Y, Checking2, debit). -/
theorem upsert_account_last_write_wins :
    (∀ (st : Store) (aid inst nm ty : List Char),
      (st.accounts.map (fun a => a.account_id)).Nodup →
      (ty = debitStr ∨ ty = creditStr) →
      ∃ st2, upsert_account st aid inst nm ty = .ok st2 ∧
        st2.accounts.filter (fun a => a.account_id == aid) =
          [⟨aid, inst, nm, ty⟩] ∧
        (st2.accounts.map (fun a => a.account_id)).Nodup ∧
        st2.transactions = st.transactions) ∧
    (upsert_account ⟨[], [], 0⟩ (strChars "A1") (strChars "X")
        (strChars "Checking") debitStr).bind (fun st1 =>
      upsert_account st1 (strChars "A1") (strChars "Y")
        (strChars "Checking2") debitStr) =
      .ok ⟨[⟨strChars "A1", strChars "Y", strChars "Checking2", debitStr⟩],
        [], 0⟩ := by
  constructor
  · intro st aid inst nm ty hnd hty
    have htyb : (ty == debitStr || ty == creditStr) = true := by
      rcases hty with h | h <;> simp [h]
    unfold upsert_account
    rw [if_pos htyb]
    by_cases hany : (st.accounts.any (fun a => a.account_id == aid)) = true
    · rw [if_pos hany]
      refine ⟨_, rfl, ?_, ?_, rfl⟩
      · exact filter_upd aid inst nm ty st.accounts hnd hany
      · rw [map_upd_ids]
        exact hnd
    · rw [if_neg hany]
      have hno : ∀ a ∈ st.accounts, (a.account_id == aid) = false := by
        intro a ha
        by_contra hcon
        simp only [Bool.not_eq_false] at hcon
        exact hany (List.any_eq_true.mpr ⟨a, ha, hcon⟩)
      refine ⟨_, rfl, ?_, ?_, rfl⟩
      · rw [List.filter_append, filter_no_match aid st.accounts hno]
        simp
      · rw [List.map_append]
        rw [List.nodup_append]
        refine ⟨hnd, by simp, ?_⟩
        intro x hx
        rw [List.mem_map] at hx
        obtain ⟨a, ha, hax⟩ := hx
        have := hno a ha
        rw [beq_eq_false_iff_ne] at this
        simp only [List.map_cons, List.map_nil, List.mem_cons,
          List.not_mem_nil, or_false]
        rw [← hax]
        exact this
  · decide

/-- Witness for C8's general clause: updating the already-registered `A1`
row overwrites all non-key fields. -/
theorem upsert_account_last_write_wins_witness :
    ((([⟨strChars "A1", strChars "X", strChars "Checking", debitStr⟩] :
        List Account).map (fun a => a.account_id)).Nodup) ∧
    (debitStr = debitStr ∨ debitStr = creditStr) ∧
    ∃ st2, upsert_account
        ⟨[⟨strChars "A1", strChars "X", strChars "Checking", debitStr⟩], [], 0⟩
        (strChars "A1") (strChars "Y") (strChars "Checking2") debitStr =
        .ok st2 ∧
      st2.accounts.filter (fun a => a.account_id == strChars "A1") =
        [⟨strChars "A1", strChars "Y", strChars "Checking2", debitStr⟩] ∧
      (st2.accounts.map (fun a => a.account_id)).Nodup ∧
      st2.transactions = (⟨[⟨strChars "A1", strChars "X", strChars "Checking",
        debitStr⟩], [], 0⟩ : Store).transactions :=
  ⟨by decide, Or.inl rfl,
    upsert_account_last_write_wins.1 _ _ _ _ _ (by decide) (Or.inl rfl)⟩

/-- C7 counterexample: against a literally empty store (no accounts
registered) a one-row batch with a distinct fingerprint is NOT inserted:
the foreign-key rejection is swallowed as a skip, so the first run returns
`inserted = 0, skipped = 1` instead of the claimed `inserted = N,
skipped = 0`. -/
theorem insert_transactions_empty_store_counterexample :
    (rowFp wRow1).isSome = true ∧
    ([wRow1].filterMap rowFp).Nodup ∧
    (insert_transactions emptyConn [wRow1]).2 = .ok (0, 1) ∧
    (insert_transactions emptyConn [wRow1]).2 ≠ .ok ([wRow1].length, 0) := by
  decide

/-- Witness for C10's bounded quantifiers at a concrete input and member
character. -/
theorem clean_description_output_charset_witness :
    'a' ∈ clean_description (some (strChars "Abc 123")) ∧
    goodChar 'a' = true ∧
    '|' ∉ clean_description (some (strChars "Abc 123")) :=
  ⟨by decide,
    (clean_description_output_charset (some (strChars "Abc 123"))).1 'a'
      (by decide),
    (clean_description_output_charset (some (strChars "Abc 123"))).2.2.2.2⟩
